import Mathlib

/-!
Shallow embedding of the Story Curation & Frame Rendering Pipeline
(content_processor.py, scraper.py, canva_integration.py).

Python strings are modelled as `String` (a structure around `List Char`);
`len` is the code-point count, matching `String.length`.  Python dicts for
stories are modelled as total records: every key the code reads is always
populated by this codebase, so `d.get(k, default)` is the field value.
External I/O (image download, article fetch, clock) is passed in as oracle
functions; the comparisons and truncations are translated from the source.
-/

namespace YTShort

/-- Characters treated as whitespace by Python's `str.split()`, `str.strip()`
and the regex class `\s` on `str`: ASCII control whitespace, the ASCII space,
and the Unicode space characters. -/
def pyIsSpace (c : Char) : Bool :=
  decide ((9 ≤ c.toNat ∧ c.toNat ≤ 13) ∨ (28 ≤ c.toNat ∧ c.toNat ≤ 32) ∨
    c.toNat = 0x85 ∨ c.toNat = 0xa0 ∨ c.toNat = 0x1680 ∨
    (0x2000 ≤ c.toNat ∧ c.toNat ≤ 0x200a) ∨ c.toNat = 0x2028 ∨ c.toNat = 0x2029 ∨
    c.toNat = 0x202f ∨ c.toNat = 0x205f ∨ c.toNat = 0x3000)

/-- Characters kept by `clean_hindi_text`'s filter
`re.sub(r'[^ऀ-ॿ -~\s]', '', text)`: the Devanagari block,
printable ASCII, and whitespace. -/
def keepChar (c : Char) : Bool :=
  decide ((0x900 ≤ c.toNat ∧ c.toNat ≤ 0x97F) ∨ (0x20 ≤ c.toNat ∧ c.toNat ≤ 0x7E)) ||
    pyIsSpace c

/-- Python `str.strip()`: drop leading and trailing whitespace. -/
def pyStrip (l : List Char) : List Char :=
  ((l.dropWhile pyIsSpace).reverse.dropWhile pyIsSpace).reverse

/-- Helper for `collapseWS`; `inRun` records whether the previous character
was whitespace (already emitted as the run's single space). -/
def collapseWSAux (inRun : Bool) : List Char → List Char
  | [] => []
  | c :: t =>
    if pyIsSpace c then
      if inRun then collapseWSAux true t else ' ' :: collapseWSAux true t
    else c :: collapseWSAux false t

/-- Python `re.sub(r'\s+', ' ', text)`: replace each whitespace run by one space. -/
def collapseWS (l : List Char) : List Char := collapseWSAux false l

/-- Python `text.replace(String.mk [a, b], String.mk [r])` for a two-character
pattern and one-character replacement: a single left-to-right scan replacing
non-overlapping occurrences. -/
def replPair (a b r : Char) : List Char → List Char
  | [] => []
  | [x] => [x]
  | x :: y :: t =>
    if x = a ∧ y = b then r :: replPair a b r t
    else x :: replPair a b r (y :: t)

/-- `ContentProcessor.clean_hindi_text`: strip characters outside the allowed
blocks, fix spacing before commas and periods, collapse whitespace, strip. -/
def cleanHindiText (l : List Char) : List Char :=
  pyStrip (collapseWS (replPair ' ' '.' '.' (replPair ' ' ',' ',' (l.filter keepChar))))

/-- `ContentProcessor.process_headline` on the character list of the input. -/
def processHeadlineL (l : List Char) : List Char :=
  if l = [] then []
  else
    let h := cleanHindiText (collapseWS (pyStrip l))
    if 80 < h.length then h.take 77 ++ ['.', '.', '.'] else h

/-- `ContentProcessor.process_headline`. -/
def processHeadline (s : String) : String :=
  String.mk (processHeadlineL s.data)

/-- Helper for `splitWS`: accumulate the current (reversed) word. -/
def splitWSAux : List Char → List Char → List (List Char)
  | [], acc => if acc = [] then [] else [acc.reverse]
  | c :: t, acc =>
    if pyIsSpace c then
      if acc = [] then splitWSAux t [] else acc.reverse :: splitWSAux t []
    else splitWSAux t (c :: acc)

/-- Python `str.split()` with no argument: split on whitespace runs,
discarding empty tokens. -/
def splitWS (l : List Char) : List (List Char) := splitWSAux l []

/-- Python `' '.join(words)` on character lists. -/
def joinWS : List (List Char) → List Char
  | [] => []
  | [w] => w
  | w :: v :: rest => w ++ ' ' :: joinWS (v :: rest)

/-- `ContentProcessor.generate_summary`: word-count truncation. -/
def generateSummary (l : List Char) (maxWords : Nat) : List Char :=
  let words := splitWS l
  if words.length ≤ maxWords then l
  else joinWS (words.take (maxWords - 3)) ++ ['.', '.', '.']

/-- The generic sentence substituted for an empty summary in
`ContentProcessor.enhance_summary`. -/
def genericCrime : List Char := "यह एक गंभीर अपराध की घटना है।".data

/-- The fixed contextual sentence appended by `ContentProcessor.enhance_summary`. -/
def contextSentence : List Char := " पुलिस जांच में जुटी है और आरोपियों की तलाश जारी है।".data

/-- `ContentProcessor.enhance_summary`. -/
def enhanceSummary (l : List Char) : List Char :=
  let s := if l = [] then genericCrime else l
  if (splitWS s).length < 30 then s ++ contextSentence else s

/-- `ContentProcessor.process_summary` on character lists. The network fetch
performed when the summary is empty but a story URL is given is modelled by
the oracle `fetch`. -/
def processSummaryL (fetch : String → String) (summary : List Char)
    (storyUrl : String) : List Char :=
  let s0 := if summary = [] ∧ storyUrl ≠ "" then (fetch storyUrl).data else summary
  let s := cleanHindiText (collapseWS (pyStrip s0))
  if 200 < s.length then generateSummary s 200
  else if s.length < 50 then enhanceSummary s
  else s

/-- `ContentProcessor.process_summary`. -/
def processSummary (fetch : String → String) (summary : String)
    (storyUrl : String) : String :=
  String.mk (processSummaryL fetch summary.data storyUrl)

/-- A raw scraped story (the dict built by `extract_story_data`); a missing
or `None` field is modelled as the empty string. -/
structure Story where
  headline : String := ""
  summary : String := ""
  image_url : String := ""
  story_url : String := ""
  source : String := ""
  crime_type : String := ""
deriving DecidableEq

/-- `ContentProcessor.calculate_quality_score`: the four `score += ...`
increments, summed. -/
def calculateQualityScore (story : Story) : Nat :=
  (if 20 < story.headline.length ∧ story.headline.length < 100 then 40
   else if 10 ≤ story.headline.length then 20
   else 0)
  + (if story.image_url ≠ "" then 30 else 0)
  + (if 50 < story.summary.length then 20 else 0)
  + (if story.crime_type ≠ "general" then 10 else 0)

/-- The `(score, story)` pair built by `sort_stories_by_quality`. -/
def scorePair (s : Story) : Nat × Story := (calculateQualityScore s, s)

/-- Insert into a descending-by-key list, placing the new element before the
first element whose key does not exceed it (so it lands before its ties). -/
def insertDesc (x : Nat × Story) : List (Nat × Story) → List (Nat × Story)
  | [] => [x]
  | y :: ys => if y.1 ≤ x.1 then x :: y :: ys else y :: insertDesc x ys

/-- Stable descending sort by key: Python's
`sort(reverse=True, key=lambda x: x[0])`.  Inserting each element (last
first) before its ties reproduces the stable order exactly. -/
def sortPairsDesc : List (Nat × Story) → List (Nat × Story)
  | [] => []
  | x :: xs => insertDesc x (sortPairsDesc xs)

/-- `ContentProcessor.sort_stories_by_quality`: pair each story with its
score, run Python's stable descending `list.sort` on the score key, and
strip the keys. -/
def sortStoriesByQuality (stories : List Story) : List Story :=
  (sortPairsDesc (stories.map scorePair)).map (·.2)

/-- The dict built by `ContentProcessor.process_single_story`. -/
structure ProcessedStory where
  id : Nat
  original_data : Story
  headline : String
  summary : String
  image_path : String
  crime_type : String
  source : String
  processed_at : String
deriving DecidableEq

/-- `ContentProcessor.process_image`: returns the empty string for a missing
URL; the download, resize and save are external and modelled by the oracle
`fetchImage` (which yields the saved path, or the empty string on failure). -/
def processImage (fetchImage : String → Nat → String) (imageUrl : String)
    (index : Nat) : String :=
  if imageUrl = "" then "" else fetchImage imageUrl index

/-- True when the text contains a character of the Devanagari block
(code points 2304 to 2431), as checked in `validate_processed_story`. -/
def hindiChars (s : String) : Bool :=
  s.data.any (fun c => decide (2304 ≤ c.toNat ∧ c.toNat ≤ 2431))

/-- `ContentProcessor.validate_processed_story`. -/
def validateProcessedStory (ps : ProcessedStory) : Bool :=
  !(ps.headline = "" || ps.headline.length < 10) &&
  !(ps.summary = "" || ps.summary.length < 50) &&
  hindiChars ps.headline

/-- `ContentProcessor.process_single_story`; `now` is the clock oracle for
the `processed_at` timestamp. -/
def processSingleStory (fetchImage : String → Nat → String)
    (fetchContent : String → String) (now : String)
    (story : Story) (index : Nat) : Option ProcessedStory :=
  let ps : ProcessedStory := {
    id := index
    original_data := story
    headline := processHeadline story.headline
    summary := processSummary fetchContent story.summary story.story_url
    image_path := processImage fetchImage story.image_url index
    crime_type := story.crime_type
    source := story.source
    processed_at := now }
  if validateProcessedStory ps then some ps else none

/-- Python's slice `l[:n]` for a possibly negative `n`. -/
def pySlice (n : Int) (l : List α) : List α :=
  if 0 ≤ n then l.take n.toNat else l.take (l.length - (-n).toNat)

/-- The `for i, story in enumerate(...)` loop body of
`ContentProcessor.process_stories`: process each story with its 1-based
index, keeping the successes. -/
def processLoop (fI : String → Nat → String) (fC : String → String)
    (now : String) : List Story → Nat → List ProcessedStory
  | [], _ => []
  | s :: rest, i =>
    match processSingleStory fI fC now s (i + 1) with
    | some ps => ps :: processLoop fI fC now rest (i + 1)
    | none => processLoop fI fC now rest (i + 1)

/-- `ContentProcessor.process_stories`: sort by quality, slice to
`maxStories`, process each survivor. -/
def processStories (fI : String → Nat → String) (fC : String → String)
    (now : String) (stories : List Story) (maxStories : Int) : List ProcessedStory :=
  processLoop fI fC now (pySlice maxStories (sortStoriesByQuality stories)) 0

/-- Python `str.lower()`. `Char.toLower` lowers the ASCII range only; the
Devanagari block is caseless, so the two agree on every keyword decision
made by this pipeline. -/
def lowerStr (s : String) : String := String.mk (s.data.map Char.toLower)

/-- The token set of a text: case-folded, whitespace-split, as a set
(`set(text.lower().split())`). -/
def tokenSet (t : String) : Finset String :=
  ((splitWS (lowerStr t).data).map String.mk).toFinset

/-- `CrimeNewsScraper.calculate_similarity`: token-set Jaccard index.
Python computes this in double precision; the exact rational value is used
here, and the comparisons against `0.7` agree with the float ones for every
realistically sized token set. -/
def calculateSimilarity (t1 t2 : String) : ℚ :=
  let s1 := tokenSet t1
  let s2 := tokenSet t2
  if (s1 ∪ s2).card = 0 then 0
  else ((s1 ∩ s2).card : ℚ) / ((s1 ∪ s2).card : ℚ)

/-- The loop of `CrimeNewsScraper.remove_duplicates` with its accumulated
list of seen headlines. -/
def removeDupAux : List Story → List String → List Story
  | [], _ => []
  | s :: rest, seen =>
    if seen.any (fun h => decide ((0.7 : ℚ) < calculateSimilarity s.headline h)) then
      removeDupAux rest seen
    else s :: removeDupAux rest (seen ++ [s.headline])

/-- `CrimeNewsScraper.remove_duplicates`. -/
def removeDuplicates (stories : List Story) : List Story :=
  removeDupAux stories []

/-- True when `pat` is an initial segment of `hay` (`str.startswith`). -/
def startsWithL : List Char → List Char → Bool
  | [], _ => true
  | _ :: _, [] => false
  | p :: ps, c :: cs => p = c && startsWithL ps cs

/-- Python's substring test `pat in hay`. -/
def containsSub (pat : List Char) : List Char → Bool
  | [] => startsWithL pat []
  | c :: t => startsWithL pat (c :: t) || containsSub pat t

/-- The ordered `crime_keywords` mapping of `classify_crime_type`
(Python dicts preserve insertion order). -/
def crimeKeywords : List (String × List String) :=
  [("murder", ["हत्या", "मर्डर", "खून", "कत्ल", "मार डाला", "मौत"]),
   ("theft", ["चोरी", "चोर", "चुराया", "गायब", "खोया"]),
   ("fraud", ["ठगी", "धोखा", "फ्रॉड", "जालसाज", "बेईमानी"]),
   ("assault", ["मारपीट", "हमला", "झगड़ा", "लड़ाई"]),
   ("rape", ["बलात्कार", "दुष्कर्म", "छेड़छाड़"]),
   ("kidnapping", ["अपहरण", "बंधक", "गायब"]),
   ("terrorism", ["आतंकी", "बम", "धमाका", "आतंकवाद"]),
   ("corruption", ["भ्रष्टाचार", "रिश्वत", "घूस"])]

/-- The nested `for crime_type, keywords in ...: for keyword in keywords:`
loop of `classify_crime_type`: return the first category owning a matching
keyword. -/
def classifyLoop (hl : List Char) : List (String × List String) → String
  | [] => "general"
  | (ct, kws) :: rest =>
    if kws.any (fun k => containsSub k.data hl) then ct else classifyLoop hl rest

/-- `CrimeNewsScraper.classify_crime_type`. -/
def classifyCrimeType (headline : String) : String :=
  classifyLoop (lowerStr headline).data crimeKeywords

/-- Python `' '.join(words)` on strings. -/
def joinWords (ws : List String) : String :=
  String.mk (joinWS (ws.map String.data))

/-- Python `text.split()` on strings. -/
def pySplitS (s : String) : List String :=
  (splitWS s.data).map String.mk

/-- The word loop of `CanvaVideoCreator.wrap_text`, with the current line's
words accumulated in `cur`.  The font-metric width `bbox[2] - bbox[0]` of a
candidate line is given by the oracle `measure`. -/
def wrapCore (measure : String → Int) (maxWidth : Int) :
    List String → List String → List (List String)
  | [], cur => if cur = [] then [] else [cur]
  | w :: rest, cur =>
    if measure (joinWords (cur ++ [w])) ≤ maxWidth then
      wrapCore measure maxWidth rest (cur ++ [w])
    else if cur = [] then [w] :: wrapCore measure maxWidth rest []
    else cur :: wrapCore measure maxWidth rest [w]

/-- `CanvaVideoCreator.wrap_text`. -/
def wrapText (measure : String → Int) (maxWidth : Int) (text : String) : List String :=
  if text = "" then []
  else (wrapCore measure maxWidth (pySplitS text) []).map joinWords

/-- Quality score of the spec's Scorer table, written from the spec's bands
(claim C1): 40 points for 20 to 99 characters, 20 for 10 to 19, 0 otherwise. -/
def specScorerTable (story : Story) : Nat :=
  (if 20 ≤ story.headline.length ∧ story.headline.length ≤ 99 then 40
   else if 10 ≤ story.headline.length ∧ story.headline.length ≤ 19 then 20
   else 0)
  + (if story.image_url ≠ "" then 30 else 0)
  + (if 50 < story.summary.length then 20 else 0)
  + (if story.crime_type ≠ "general" then 10 else 0)

/-- The corrected headline band: 40 points for 21 to 99 characters, and 20
points for any other headline of at least 10 characters (10 to 20, or 100
and longer). -/
def amendedScorerTable (story : Story) : Nat :=
  (if 21 ≤ story.headline.length ∧ story.headline.length ≤ 99 then 40
   else if 10 ≤ story.headline.length then 20
   else 0)
  + (if story.image_url ≠ "" then 30 else 0)
  + (if 50 < story.summary.length then 20 else 0)
  + (if story.crime_type ≠ "general" then 10 else 0)

/-- Fixed oracle standing in for the image download in concrete runs. -/
def oracleI : String → Nat → String := fun _ _ => ""

/-- Fixed oracle standing in for the article-content fetch in concrete runs. -/
def oracleC : String → String := fun _ => ""

/-- A story whose 20-character headline separates the spec's scoring band
from the implemented one. -/
def bandStory : Story :=
  { headline := String.mk (List.replicate 20 'a'), crime_type := "general" }

/-- The concrete story of the spec's Scorer example: 30-character headline,
image present, 60-character summary, category fraud. -/
def exampleStory100 : Story :=
  { headline := String.mk (List.replicate 30 'क'),
    summary := String.mk (List.replicate 60 'b'),
    image_url := "i", crime_type := "fraud" }

/-- A story that scores 60 but whose short Latin headline fails validation. -/
def c2StoryA : Story :=
  { headline := "abcde", summary := String.mk (List.replicate 60 'b'),
    image_url := "i", crime_type := "fraud" }

/-- A story that also scores 60 and survives validation. -/
def c2StoryB : Story :=
  { headline := String.mk (List.replicate 30 'क'),
    summary := String.mk (List.replicate 60 'b'), crime_type := "general" }

/-- A concrete font metric for witnesses: the character count of the line. -/
def lenMeasure (s : String) : Int := s.length

/-- True when the two-character pattern `a b` occurs (adjacently) in the list. -/
def hasPair (a b : Char) : List Char → Bool
  | x :: y :: t => (decide (x = a) && decide (y = b)) || hasPair a b (y :: t)
  | _ => false

/-- The list is empty or starts with a non-whitespace character. -/
def headNotWS (l : List Char) : Prop :=
  ∀ x t, l = x :: t → pyIsSpace x = false

/-- The list is empty or starts with a character other than the space. -/
def headNotSp (l : List Char) : Prop :=
  ∀ x t, l = x :: t → x ≠ ' '

/-- First story of the exact-threshold pair: ten distinct tokens. -/
def dupStoryA : Story := { headline := "a b c d e f g h i j" }

/-- Second story of the exact-threshold pair: seven of the same tokens, so
the token-set Jaccard similarity against `dupStoryA` is exactly 7/10. -/
def dupStoryB : Story := { headline := "a b c d e f g" }

/-- First story of an identical-headline pair. -/
def dupStoryC : Story := { headline := "x y z", source := "s1" }

/-- Second story of the identical-headline pair (similarity 1). -/
def dupStoryD : Story := { headline := "x y z", source := "s2" }

/-- Classifier written from the spec's words: the first category in declared
order whose keyword set contains a member occurring as a substring of the
case-folded headline; `general` when none matches. -/
def specClassifier (h : String) : String :=
  match crimeKeywords.find? (fun p => p.2.any (fun k => containsSub k.data (lowerStr h).data)) with
  | some p => p.1
  | none => "general"

/-
Theorems.
-/

theorem classifyLoop_eq_find (hl : List Char) (l : List (String × List String)) :
    classifyLoop hl l =
      match l.find? (fun p => p.2.any (fun k => containsSub k.data hl)) with
      | some p => p.1
      | none => "general" := by
  induction l with
  | nil => rfl
  | cons p rest ih =>
    obtain ⟨ct, kws⟩ := p
    by_cases hp : (kws.any fun k => containsSub k.data hl) = true
    · simp [classifyLoop, List.find?_cons, hp]
    · simp only [Bool.not_eq_true] at hp
      simp [classifyLoop, List.find?_cons, hp, ih]

/-- C1 counterexample: on a story with a 20-character headline the spec's
table gives the 40-point band, but the code gives 20 points (the strict
comparison `len(headline) > 20` excludes length 20). -/
theorem calculateQualityScore_ne_specScorerTable :
    calculateQualityScore bandStory ≠ specScorerTable bandStory := by decide

/-- C1 (amended): the quality score is 40 points for a headline of 21 to 99
characters, 20 points for any other headline of at least 10 characters
(10 to 20, or 100 and longer), 0 otherwise; plus 30 for a present image,
20 for a summary longer than 50 characters, and 10 for a category other
than general.  The spec's concrete example still scores 100. -/
theorem calculateQualityScore_amended :
    (∀ story : Story, calculateQualityScore story = amendedScorerTable story) ∧
    calculateQualityScore exampleStory100 = 100 := by
  refine ⟨fun story => ?_, by decide⟩
  unfold calculateQualityScore amendedScorerTable
  split_ifs <;> omega

/-- C7: `classify_crime_type` returns the first category in declared order
whose keyword set has a member occurring as a substring of the case-folded
headline, and `general` when no keyword matches; the keyword headline
containing only the murder keyword is classified murder, and the keyword
shared between theft and kidnapping resolves to the first-declared theft. -/
theorem classifyCrimeType_spec :
    (∀ h : String, classifyCrimeType h = specClassifier h) ∧
    classifyCrimeType "हत्या" = "murder" ∧
    classifyCrimeType "गायब" = "theft" :=
  ⟨fun h => classifyLoop_eq_find (lowerStr h).data crimeKeywords, by decide, by decide⟩

theorem mem_insertDesc {x z : Nat × Story} {l : List (Nat × Story)} :
    z ∈ insertDesc x l ↔ z = x ∨ z ∈ l := by
  induction l with
  | nil => simp [insertDesc]
  | cons y ys ih =>
    by_cases h : y.1 ≤ x.1
    · simp [insertDesc, h]
    · simp only [insertDesc, if_neg h, List.mem_cons, ih]
      tauto

theorem insertDesc_perm (x : Nat × Story) (l : List (Nat × Story)) :
    List.Perm (insertDesc x l) (x :: l) := by
  induction l with
  | nil => exact List.Perm.refl _
  | cons y ys ih =>
    by_cases h : y.1 ≤ x.1
    · rw [insertDesc, if_pos h]
    · rw [insertDesc, if_neg h]
      exact (ih.cons y).trans (List.Perm.swap x y ys)

theorem sortPairsDesc_perm (l : List (Nat × Story)) :
    List.Perm (sortPairsDesc l) l := by
  induction l with
  | nil => exact List.Perm.refl _
  | cons x xs ih =>
    exact (insertDesc_perm x (sortPairsDesc xs)).trans (ih.cons x)

theorem insertDesc_sorted {x : Nat × Story} {l : List (Nat × Story)}
    (h : l.Pairwise (fun a b => b.1 ≤ a.1)) :
    (insertDesc x l).Pairwise (fun a b => b.1 ≤ a.1) := by
  induction l with
  | nil => simp [insertDesc]
  | cons y ys ih =>
    obtain ⟨hy, hys⟩ := List.pairwise_cons.mp h
    by_cases hyx : y.1 ≤ x.1
    · rw [insertDesc, if_pos hyx]
      refine List.Pairwise.cons ?_ h
      intro z hz
      rcases List.mem_cons.mp hz with rfl | hz'
      · exact hyx
      · exact le_trans (hy z hz') hyx
    · rw [insertDesc, if_neg hyx]
      refine List.Pairwise.cons ?_ (ih hys)
      intro z hz
      rcases mem_insertDesc.mp hz with rfl | hz'
      · omega
      · exact hy z hz'

theorem sortPairsDesc_sorted (l : List (Nat × Story)) :
    (sortPairsDesc l).Pairwise (fun a b => b.1 ≤ a.1) := by
  induction l with
  | nil => simp [sortPairsDesc]
  | cons x xs ih => exact insertDesc_sorted ih

theorem filter_insertDesc_pos {c : Nat} {x : Nat × Story} {l : List (Nat × Story)}
    (hx : x.1 = c) (hl : l.Pairwise (fun a b => b.1 ≤ a.1)) :
    (insertDesc x l).filter (fun z => decide (z.1 = c)) =
      x :: l.filter (fun z => decide (z.1 = c)) := by
  induction l with
  | nil => simp [insertDesc, hx]
  | cons y ys ih =>
    obtain ⟨hy, hys⟩ := List.pairwise_cons.mp hl
    by_cases hyx : y.1 ≤ x.1
    · rw [insertDesc, if_pos hyx]
      simp [List.filter_cons, hx]
    · have hyc : ¬ y.1 = c := by omega
      rw [insertDesc, if_neg hyx]
      simp only [List.filter_cons, hyc, decide_eq_true_eq, if_false, ih hys]

theorem filter_insertDesc_neg {c : Nat} {x : Nat × Story} {l : List (Nat × Story)}
    (hx : ¬ x.1 = c) :
    (insertDesc x l).filter (fun z => decide (z.1 = c)) =
      l.filter (fun z => decide (z.1 = c)) := by
  induction l with
  | nil => simp [insertDesc, hx]
  | cons y ys ih =>
    by_cases hyx : y.1 ≤ x.1
    · rw [insertDesc, if_pos hyx]
      simp [List.filter_cons, hx]
    · rw [insertDesc, if_neg hyx]
      simp only [List.filter_cons, ih]

theorem sortPairsDesc_stable (l : List (Nat × Story)) (c : Nat) :
    (sortPairsDesc l).filter (fun z => decide (z.1 = c)) =
      l.filter (fun z => decide (z.1 = c)) := by
  induction l with
  | nil => rfl
  | cons x xs ih =>
    by_cases hx : x.1 = c
    · rw [sortPairsDesc, filter_insertDesc_pos hx (sortPairsDesc_sorted xs), ih]
      simp [List.filter_cons, hx]
    · rw [sortPairsDesc, filter_insertDesc_neg hx, ih]
      simp [List.filter_cons, hx]

theorem mem_scored_fst {stories : List Story} {x : Nat × Story}
    (hx : x ∈ sortPairsDesc (stories.map scorePair)) :
    x.1 = calculateQualityScore x.2 := by
  have := (sortPairsDesc_perm (stories.map scorePair)).mem_iff.mp hx
  obtain ⟨s, _, rfl⟩ := List.mem_map.mp this
  rfl

theorem sortStoriesByQuality_perm (stories : List Story) :
    List.Perm (sortStoriesByQuality stories) stories := by
  unfold sortStoriesByQuality
  have h := (sortPairsDesc_perm (stories.map scorePair)).map
    (fun x : Nat × Story => x.2)
  have h2 : (stories.map scorePair).map (fun x : Nat × Story => x.2) = stories := by
    rw [List.map_map]
    have h3 : ((fun x : Nat × Story => x.2) ∘ scorePair) = id := rfl
    rw [h3, List.map_id]
  rw [h2] at h
  exact h

theorem sortStoriesByQuality_length (stories : List Story) :
    (sortStoriesByQuality stories).length = stories.length :=
  (sortStoriesByQuality_perm stories).length_eq

theorem sortStoriesByQuality_pairwise (stories : List Story) :
    (sortStoriesByQuality stories).Pairwise
      (fun s t => calculateQualityScore t ≤ calculateQualityScore s) := by
  unfold sortStoriesByQuality
  rw [List.pairwise_map]
  refine (sortPairsDesc_sorted (stories.map scorePair)).imp_of_mem ?_
  intro a b ha hb hab
  have ha' := mem_scored_fst ha
  have hb' := mem_scored_fst hb
  omega

theorem sortStoriesByQuality_stable (stories : List Story) (c : Nat) :
    (sortStoriesByQuality stories).filter (fun s => calculateQualityScore s = c) =
    stories.filter (fun s => calculateQualityScore s = c) := by
  unfold sortStoriesByQuality
  calc ((sortPairsDesc (stories.map scorePair)).map (·.2)).filter
        (fun s => decide (calculateQualityScore s = c))
      = ((sortPairsDesc (stories.map scorePair)).filter
          ((fun s => decide (calculateQualityScore s = c)) ∘ (·.2))).map (·.2) :=
        List.filter_map _ _
    _ = ((sortPairsDesc (stories.map scorePair)).filter
          (fun x => decide (x.1 = c))).map (·.2) := by
        refine congrArg _ (List.filter_congr fun x hx => ?_)
        simp only [Function.comp_apply, mem_scored_fst hx]
    _ = ((stories.map scorePair).filter (fun x => decide (x.1 = c))).map (·.2) := by
        rw [sortPairsDesc_stable]
    _ = ((stories.map scorePair).filter
          ((fun s => decide (calculateQualityScore s = c)) ∘ (·.2))).map (·.2) := by
        refine congrArg _ (List.filter_congr fun x hx => ?_)
        obtain ⟨s, _, rfl⟩ := List.mem_map.mp hx
        rfl
    _ = stories.filter (fun s => decide (calculateQualityScore s = c)) := by
        rw [← List.filter_map]
        rw [List.map_map]
        have h2 : ((fun x : Nat × Story => x.2) ∘ scorePair) = id := rfl
        rw [h2, List.map_id]

/-- C9: `sort_stories_by_quality` is a stable descending sort by quality
score: the output is a permutation of the input, scores are non-increasing
along it, and for every score value the tied stories keep their original
relative order. -/
theorem sortStoriesByQuality_stable_desc_sort (stories : List Story) :
    List.Perm (sortStoriesByQuality stories) stories ∧
    (sortStoriesByQuality stories).Pairwise
      (fun s t => calculateQualityScore t ≤ calculateQualityScore s) ∧
    ∀ c : Nat,
      (sortStoriesByQuality stories).filter (fun s => calculateQualityScore s = c) =
      stories.filter (fun s => calculateQualityScore s = c) :=
  ⟨sortStoriesByQuality_perm stories, sortStoriesByQuality_pairwise stories,
   sortStoriesByQuality_stable stories⟩

theorem processSingleStory_some {fI : String → Nat → String} {fC : String → String}
    {now : String} {s : Story} {i : Nat} {ps : ProcessedStory}
    (h : processSingleStory fI fC now s i = some ps) :
    ps.original_data = s ∧ ps.id = i := by
  simp only [processSingleStory] at h
  split at h
  · cases h; exact ⟨rfl, rfl⟩
  · exact absurd h (by simp)

theorem processLoop_length_le (fI : String → Nat → String) (fC : String → String)
    (now : String) : ∀ (l : List Story) (i : Nat),
    (processLoop fI fC now l i).length ≤ l.length := by
  intro l
  induction l with
  | nil => intro i; simp [processLoop]
  | cons s rest ih =>
    intro i
    cases h : processSingleStory fI fC now s (i + 1) with
    | some ps =>
      simp only [processLoop, h, List.length_cons]
      exact Nat.succ_le_succ (ih (i + 1))
    | none =>
      simp only [processLoop, h, List.length_cons]
      exact Nat.le_succ_of_le (ih (i + 1))

theorem processLoop_original_sublist (fI : String → Nat → String) (fC : String → String)
    (now : String) : ∀ (l : List Story) (i : Nat),
    List.Sublist ((processLoop fI fC now l i).map (·.original_data)) l := by
  intro l
  induction l with
  | nil => intro i; simp [processLoop]
  | cons s rest ih =>
    intro i
    cases h : processSingleStory fI fC now s (i + 1) with
    | some ps =>
      simp only [processLoop, h, List.map_cons]
      rw [(processSingleStory_some h).1]
      exact (ih (i + 1)).cons₂ s
    | none =>
      simp only [processLoop, h]
      exact (ih (i + 1)).cons s

theorem processLoop_id_bounds (fI : String → Nat → String) (fC : String → String)
    (now : String) : ∀ (l : List Story) (i : Nat),
    ∀ ps ∈ processLoop fI fC now l i, i < ps.id ∧ ps.id ≤ i + l.length := by
  intro l
  induction l with
  | nil => intro i ps hps; simp [processLoop] at hps
  | cons s rest ih =>
    intro i ps hps
    cases h : processSingleStory fI fC now s (i + 1) with
    | some q =>
      rw [processLoop, h] at hps
      rcases List.mem_cons.mp hps with rfl | hmem
      · have := (processSingleStory_some h).2
        simp only [List.length_cons]
        omega
      · have := ih (i + 1) ps hmem
        simp only [List.length_cons]
        omega
    | none =>
      rw [processLoop, h] at hps
      have := ih (i + 1) ps hps
      simp only [List.length_cons]
      omega

theorem processLoop_ids_increasing (fI : String → Nat → String) (fC : String → String)
    (now : String) : ∀ (l : List Story) (i : Nat),
    ((processLoop fI fC now l i).map (·.id)).Pairwise (· < ·) := by
  intro l
  induction l with
  | nil => intro i; simp [processLoop]
  | cons s rest ih =>
    intro i
    cases h : processSingleStory fI fC now s (i + 1) with
    | some ps =>
      simp only [processLoop, h, List.map_cons]
      refine List.Pairwise.cons ?_ (ih (i + 1))
      intro b hb
      obtain ⟨q, hq, rfl⟩ := List.mem_map.mp hb
      have h1 := (processLoop_id_bounds fI fC now rest (i + 1) q hq).1
      have h2 := (processSingleStory_some h).2
      omega
    | none =>
      simp only [processLoop, h]
      exact ih (i + 1)

theorem processLoop_ids_of_no_drop (fI : String → Nat → String) (fC : String → String)
    (now : String) : ∀ (l : List Story) (i : Nat),
    (processLoop fI fC now l i).length = l.length →
    (processLoop fI fC now l i).map (·.id) = List.range' (i + 1) l.length := by
  intro l
  induction l with
  | nil => intro i _; simp [processLoop]
  | cons s rest ih =>
    intro i hlen
    cases h : processSingleStory fI fC now s (i + 1) with
    | some ps =>
      rw [processLoop, h] at hlen ⊢
      simp only [List.length_cons] at hlen
      rw [List.map_cons, (processSingleStory_some h).2, List.length_cons,
        List.range'_succ, ih (i + 1) (Nat.succ_injective hlen)]
    | none =>
      rw [processLoop, h] at hlen
      simp only [List.length_cons] at hlen
      have := processLoop_length_le fI fC now rest (i + 1)
      omega

theorem pySlice_sublist (n : Int) (l : List α) : List.Sublist (pySlice n l) l := by
  unfold pySlice
  split
  · exact List.take_sublist _ _
  · exact List.take_sublist _ _

/-- C8 counterexample: calling the curation entry point with limit 0 returns
the empty list through the normal path — no contract violation is raised
(the model is a total function into lists; the code's only exceptional exits
are the per-story `try/except` which `continue`s). -/
theorem processStories_zero_limit_counterexample :
    processStories oracleI oracleC "t" [c2StoryB] 0 = [] := by decide

/-- C8 (amended): a non-positive `max_stories` is not reported as an error;
`process_stories` returns normally.  Limit 0 — and any negative limit of
magnitude at least the story count, by Python slice semantics — yields the
empty list. -/
theorem processStories_nonpositive_limit (fI : String → Nat → String)
    (fC : String → String) (now : String) (stories : List Story) (limit : Int)
    (h : limit = 0 ∨ limit + stories.length ≤ 0) :
    processStories fI fC now stories limit = [] := by
  unfold processStories
  suffices hs : pySlice limit (sortStoriesByQuality stories) = [] by
    rw [hs]; rfl
  unfold pySlice
  have hlen := sortStoriesByQuality_length stories
  by_cases hpos : (0 : Int) ≤ limit
  · have h0 : limit.toNat = 0 := by omega
    rw [if_pos hpos, h0, List.take_zero]
  · rw [if_neg hpos]
    have h0 : (sortStoriesByQuality stories).length - (-limit).toNat = 0 := by omega
    rw [h0, List.take_zero]

theorem processStories_nonpositive_limit_witness :
    processStories oracleI oracleC "t" [c2StoryA, c2StoryB] (-2) = [] :=
  processStories_nonpositive_limit oracleI oracleC "t" [c2StoryA, c2StoryB] (-2)
    (Or.inr (by decide))

/-- C2 counterexample: with input `[c2StoryA, c2StoryB]` (tied scores, the
first failing validation) the assigned ids are `[2]`, not the contiguous
range `1..1`: the 1-based index is taken in the sorted, truncated candidate
list before validation drops anything. -/
theorem processStories_sequenceId_counterexample :
    (processStories oracleI oracleC "t" [c2StoryA, c2StoryB] 4).map (·.id) ≠
    List.range' 1 ((processStories oracleI oracleC "t" [c2StoryA, c2StoryB] 4).length) := by
  decide

/-- C2 (amended): for a positive limit, `process_stories` returns at most
`limit` stories, their quality scores are non-increasing in emission order,
and the assigned ids are strictly increasing (each id is the story's 1-based
position among the sorted, truncated candidates); the ids are exactly the
contiguous range `1..len(output)` whenever no candidate is dropped by
validation. -/
theorem processStories_selector_amended (fI : String → Nat → String)
    (fC : String → String) (now : String) (stories : List Story) (limit : Int)
    (hpos : 0 < limit) :
    (processStories fI fC now stories limit).length ≤ limit.toNat ∧
    ((processStories fI fC now stories limit).map
      (fun ps => calculateQualityScore ps.original_data)).Pairwise (fun a b => b ≤ a) ∧
    ((processStories fI fC now stories limit).map (·.id)).Pairwise (· < ·) ∧
    ((processStories fI fC now stories limit).length =
        (pySlice limit (sortStoriesByQuality stories)).length →
      (processStories fI fC now stories limit).map (·.id) =
        List.range' 1 ((processStories fI fC now stories limit).length)) := by
  refine ⟨?_, ?_, ?_, ?_⟩
  · -- length bound
    unfold processStories
    refine le_trans (processLoop_length_le fI fC now _ 0) ?_
    unfold pySlice
    rw [if_pos (le_of_lt hpos)]
    exact le_trans (List.length_take_le _ _) (le_refl _)
  · -- scores non-increasing
    unfold processStories
    have hsorted := sortStoriesByQuality_pairwise stories
    have hsliced := List.Pairwise.sublist
      (pySlice_sublist limit (sortStoriesByQuality stories)) hsorted
    have hsub := processLoop_original_sublist fI fC now
      (pySlice limit (sortStoriesByQuality stories)) 0
    have hout := List.Pairwise.sublist hsub hsliced
    rw [List.pairwise_map] at hout
    rw [List.pairwise_map]
    exact hout
  · -- ids strictly increasing
    exact processLoop_ids_increasing fI fC now _ 0
  · -- contiguous when nothing is dropped
    intro hlen
    unfold processStories at hlen ⊢
    rw [hlen]
    exact processLoop_ids_of_no_drop fI fC now _ 0 hlen

theorem removeDupAux_sublist : ∀ (l : List Story) (seen : List String),
    List.Sublist (removeDupAux l seen) l := by
  intro l
  induction l with
  | nil => intro seen; simp [removeDupAux]
  | cons s rest ih =>
    intro seen
    by_cases h : (seen.any fun h =>
        decide ((0.7 : ℚ) < calculateSimilarity s.headline h)) = true
    · rw [removeDupAux, if_pos h]
      exact (ih seen).cons s
    · rw [removeDupAux, if_neg h]
      exact (ih (seen ++ [s.headline])).cons₂ s

theorem removeDupAux_le_seen : ∀ (l : List Story) (seen : List String) (h : String),
    h ∈ seen → ∀ s ∈ removeDupAux l seen,
    calculateSimilarity s.headline h ≤ 0.7 := by
  intro l
  induction l with
  | nil => intro seen h _ s hs; simp [removeDupAux] at hs
  | cons s0 rest ih =>
    intro seen h hh s hs
    by_cases hany : (seen.any fun h =>
        decide ((0.7 : ℚ) < calculateSimilarity s0.headline h)) = true
    · rw [removeDupAux, if_pos hany] at hs
      exact ih seen h hh s hs
    · rw [removeDupAux, if_neg hany] at hs
      rcases List.mem_cons.mp hs with rfl | hs'
      · have := List.any_eq_false.mp (Bool.not_eq_true _ ▸ hany) h hh
        simp only [decide_eq_true_eq] at this
        exact le_of_not_lt this
      · exact ih (seen ++ [s0.headline]) h (List.mem_append_left _ hh) s hs'

theorem removeDupAux_pairwise : ∀ (l : List Story) (seen : List String),
    (removeDupAux l seen).Pairwise
      (fun a b => calculateSimilarity b.headline a.headline ≤ 0.7) := by
  intro l
  induction l with
  | nil => intro seen; simp [removeDupAux]
  | cons s0 rest ih =>
    intro seen
    by_cases hany : (seen.any fun h =>
        decide ((0.7 : ℚ) < calculateSimilarity s0.headline h)) = true
    · rw [removeDupAux, if_pos hany]
      exact ih seen
    · rw [removeDupAux, if_neg hany]
      refine List.Pairwise.cons ?_ (ih (seen ++ [s0.headline]))
      intro b hb
      exact removeDupAux_le_seen rest (seen ++ [s0.headline]) s0.headline
        (List.mem_append_right _ (List.mem_singleton_self _)) b hb

theorem removeDupAux_dropped : ∀ (l : List Story) (seen : List String) (s : Story),
    s ∈ l → s ∉ removeDupAux l seen →
    (∃ h ∈ seen, (0.7 : ℚ) < calculateSimilarity s.headline h) ∨
    (∃ t ∈ removeDupAux l seen, (0.7 : ℚ) < calculateSimilarity s.headline t.headline) := by
  intro l
  induction l with
  | nil => intro seen s hs; simp at hs
  | cons s0 rest ih =>
    intro seen s hs hout
    by_cases hany : (seen.any fun h =>
        decide ((0.7 : ℚ) < calculateSimilarity s0.headline h)) = true
    · rw [removeDupAux, if_pos hany] at hout ⊢
      rcases List.mem_cons.mp hs with rfl | hs'
      · obtain ⟨h, hh, hgt⟩ := List.any_eq_true.mp hany
        exact Or.inl ⟨h, hh, decide_eq_true_eq.mp hgt⟩
      · exact ih seen s hs' hout
    · rw [removeDupAux, if_neg hany] at hout ⊢
      rcases List.mem_cons.mp hs with rfl | hs'
      · exact absurd (List.mem_cons_self _ _) hout
      · have hout' : s ∉ removeDupAux rest (seen ++ [s0.headline]) :=
          fun hc => hout (List.mem_cons_of_mem _ hc)
        rcases ih (seen ++ [s0.headline]) s hs' hout' with ⟨h, hh, hgt⟩ | ⟨t, ht, hgt⟩
        · rcases List.mem_append.mp hh with hh' | hh'
          · exact Or.inl ⟨h, hh', hgt⟩
          · refine Or.inr ⟨s0, List.mem_cons_self _ _, ?_⟩
            rwa [List.mem_singleton.mp hh'] at hgt
        · exact Or.inr ⟨t, List.mem_cons_of_mem _ ht, hgt⟩

theorem removeDupAux_id_of_pairwise : ∀ (l : List Story) (seen : List String),
    l.Pairwise (fun a b => calculateSimilarity b.headline a.headline ≤ 0.7) →
    (∀ s ∈ l, ∀ h ∈ seen, calculateSimilarity s.headline h ≤ 0.7) →
    removeDupAux l seen = l := by
  intro l
  induction l with
  | nil => intro seen _ _; rfl
  | cons s0 rest ih =>
    intro seen hpw hseen
    obtain ⟨hhead, htail⟩ := List.pairwise_cons.mp hpw
    have hany : (seen.any fun h =>
        decide ((0.7 : ℚ) < calculateSimilarity s0.headline h)) = false := by
      rw [List.any_eq_false]
      intro h hh
      simp only [decide_eq_true_eq]
      exact not_lt.mpr (hseen s0 (List.mem_cons_self _ _) h hh)
    rw [removeDupAux, if_neg (by simp [hany])]
    congr 1
    refine ih (seen ++ [s0.headline]) htail ?_
    intro t ht h hh
    rcases List.mem_append.mp hh with hh' | hh'
    · exact hseen t (List.mem_cons_of_mem _ ht) h hh'
    · rw [List.mem_singleton.mp hh']
      exact hhead t ht

/-- C3 counterexample: a pair whose token-set Jaccard similarity is exactly
0.7 survives deduplication in full, because the code drops only on a
strictly greater similarity — so two output headlines can be 0.7-similar. -/
theorem removeDuplicates_threshold_counterexample :
    removeDuplicates [dupStoryA, dupStoryB] = [dupStoryA, dupStoryB] ∧
    (0.7 : ℚ) ≤ calculateSimilarity dupStoryB.headline dupStoryA.headline := by
  have hi : (tokenSet dupStoryB.headline ∩ tokenSet dupStoryA.headline).card = 7 := by
    decide
  have hu : (tokenSet dupStoryB.headline ∪ tokenSet dupStoryA.headline).card = 10 := by
    decide
  have hsim : calculateSimilarity dupStoryB.headline dupStoryA.headline = 7 / 10 := by
    rw [calculateSimilarity]
    rw [hi, hu]
    norm_num
  constructor
  · have hb : decide ((0.7 : ℚ) <
        calculateSimilarity dupStoryB.headline dupStoryA.headline) = false := by
      rw [hsim]
      norm_num
    simp [removeDuplicates, removeDupAux, hb]
  · rw [hsim]; norm_num

/-- C3 (amended): the output of `remove_duplicates` is an order-preserving
subsequence of the input in which every dropped story is strictly more than
0.7-similar to some survivor, and no two output headlines have token-set
Jaccard similarity strictly greater than 0.7 (similarity exactly 0.7 is
kept: the drop test is `> 0.7`, not `≥ 0.7`). -/
theorem removeDuplicates_amended (stories : List Story) :
    List.Sublist (removeDuplicates stories) stories ∧
    (removeDuplicates stories).Pairwise
      (fun a b => calculateSimilarity b.headline a.headline ≤ 0.7) ∧
    ∀ s ∈ stories, s ∉ removeDuplicates stories →
      ∃ t ∈ removeDuplicates stories,
        (0.7 : ℚ) < calculateSimilarity s.headline t.headline := by
  refine ⟨removeDupAux_sublist stories [], removeDupAux_pairwise stories [], ?_⟩
  intro s hs hout
  rcases removeDupAux_dropped stories [] s hs hout with ⟨h, hh, _⟩ | hok
  · simp at hh
  · exact hok

theorem removeDuplicates_amended_witness :
    List.Sublist (removeDuplicates [dupStoryC, dupStoryD]) [dupStoryC, dupStoryD] ∧
    (removeDuplicates [dupStoryC, dupStoryD]).Pairwise
      (fun a b => calculateSimilarity b.headline a.headline ≤ 0.7) ∧
    (∃ t ∈ removeDuplicates [dupStoryC, dupStoryD],
      (0.7 : ℚ) < calculateSimilarity dupStoryD.headline t.headline) := by
  have base := removeDuplicates_amended [dupStoryC, dupStoryD]
  have hi : (tokenSet dupStoryD.headline ∩ tokenSet dupStoryC.headline).card = 3 := by
    decide
  have hu : (tokenSet dupStoryD.headline ∪ tokenSet dupStoryC.headline).card = 3 := by
    decide
  have hsim : calculateSimilarity dupStoryD.headline dupStoryC.headline = 1 := by
    rw [calculateSimilarity]
    rw [hi, hu]
    norm_num
  have hb : decide ((0.7 : ℚ) <
      calculateSimilarity dupStoryD.headline dupStoryC.headline) = true := by
    rw [hsim]
    norm_num
  have hout : removeDuplicates [dupStoryC, dupStoryD] = [dupStoryC] := by
    simp [removeDuplicates, removeDupAux, hb]
  refine ⟨base.1, base.2.1, ?_⟩
  refine base.2.2 dupStoryD (by decide) ?_
  rw [hout]
  decide

theorem String_mk_data (s : String) : String.mk s.data = s := rfl

theorem splitWSAux_words : ∀ (l acc : List Char), (∀ c ∈ acc, pyIsSpace c = false) →
    ∀ w ∈ splitWSAux l acc, w ≠ [] ∧ ∀ c ∈ w, pyIsSpace c = false := by
  intro l
  induction l with
  | nil =>
    intro acc hacc w hw
    by_cases h : acc = []
    · simp [splitWSAux, h] at hw
    · rw [splitWSAux, if_neg h] at hw
      rcases List.mem_singleton.mp hw with rfl
      refine ⟨by simpa using h, ?_⟩
      intro c hc
      exact hacc c (List.mem_reverse.mp hc)
  | cons c t ih =>
    intro acc hacc w hw
    rw [splitWSAux] at hw
    by_cases hc : pyIsSpace c = true
    · rw [if_pos hc] at hw
      by_cases ha : acc = []
      · rw [if_pos ha] at hw
        exact ih [] (by simp) w hw
      · rw [if_neg ha] at hw
        rcases List.mem_cons.mp hw with rfl | hw'
        · refine ⟨by simpa using ha, ?_⟩
          intro x hx
          exact hacc x (List.mem_reverse.mp hx)
        · exact ih [] (by simp) w hw'
    · rw [if_neg hc] at hw
      refine ih (c :: acc) ?_ w hw
      intro x hx
      rcases List.mem_cons.mp hx with rfl | hx'
      · exact Bool.not_eq_true _ ▸ hc
      · exact hacc x hx'

theorem splitWSAux_append : ∀ (w l acc : List Char),
    (∀ c ∈ w, pyIsSpace c = false) →
    splitWSAux (w ++ l) acc = splitWSAux l (w.reverse ++ acc) := by
  intro w
  induction w with
  | nil => intro l acc _; simp
  | cons c cs ih =>
    intro l acc hw
    have hc : pyIsSpace c = false := hw c (List.mem_cons_self _ _)
    rw [List.cons_append, splitWSAux, if_neg (by simp [hc])]
    rw [ih l (c :: acc) (fun x hx => hw x (List.mem_cons_of_mem _ hx))]
    simp

theorem splitWS_joinWS : ∀ (ws : List (List Char)),
    (∀ w ∈ ws, w ≠ [] ∧ ∀ c ∈ w, pyIsSpace c = false) →
    splitWS (joinWS ws) = ws := by
  intro ws
  induction ws with
  | nil => intro _; rfl
  | cons w vs ih =>
    intro h
    obtain ⟨hw, hwc⟩ := h w (List.mem_cons_self _ _)
    cases vs with
    | nil =>
      show splitWSAux (joinWS [w]) [] = [w]
      rw [joinWS, ← List.append_nil w, splitWSAux_append w [] [] hwc]
      rw [splitWSAux, if_neg (by simpa using hw)]
      simp
    | cons v vs' =>
      show splitWSAux (w ++ ' ' :: joinWS (v :: vs')) [] = w :: v :: vs'
      rw [splitWSAux_append w _ [] hwc, splitWSAux,
        if_pos (by rfl), if_neg (by simpa using hw)]
      rw [List.append_nil, List.reverse_reverse]
      exact congrArg _ (ih (fun u hu => h u (List.mem_cons_of_mem _ hu)))

theorem wrapCore_join (measure : String → Int) (maxWidth : Int) :
    ∀ (ws cur : List String),
    (wrapCore measure maxWidth ws cur).flatten = cur ++ ws := by
  intro ws
  induction ws with
  | nil =>
    intro cur
    by_cases h : cur = []
    · simp [wrapCore, h]
    · simp [wrapCore, h]
  | cons w rest ih =>
    intro cur
    rw [wrapCore]
    by_cases hle : measure (joinWords (cur ++ [w])) ≤ maxWidth
    · rw [if_pos hle, ih (cur ++ [w])]
      simp
    · rw [if_neg hle]
      by_cases hcur : cur = []
      · rw [if_pos hcur, hcur]
        simp [ih []]
      · rw [if_neg hcur]
        simp [ih [w]]

theorem wrapCore_width (measure : String → Int) (maxWidth : Int) :
    ∀ (ws cur : List String),
    (cur = [] ∨ (∃ w, cur = [w]) ∨ measure (joinWords cur) ≤ maxWidth) →
    ∀ lws ∈ wrapCore measure maxWidth ws cur,
      (∃ w, lws = [w]) ∨ measure (joinWords lws) ≤ maxWidth := by
  intro ws
  induction ws with
  | nil =>
    intro cur hinv lws hlws
    by_cases h : cur = []
    · simp [wrapCore, h] at hlws
    · rw [wrapCore, if_neg h] at hlws
      rcases List.mem_singleton.mp hlws with rfl
      rcases hinv with rfl | hs | hle
      · exact absurd rfl h
      · exact Or.inl hs
      · exact Or.inr hle
  | cons w rest ih =>
    intro cur hinv lws hlws
    rw [wrapCore] at hlws
    by_cases hle : measure (joinWords (cur ++ [w])) ≤ maxWidth
    · rw [if_pos hle] at hlws
      exact ih (cur ++ [w]) (Or.inr (Or.inr hle)) lws hlws
    · rw [if_neg hle] at hlws
      by_cases hcur : cur = []
      · rw [if_pos hcur] at hlws
        rcases List.mem_cons.mp hlws with rfl | hlws'
        · exact Or.inl ⟨w, rfl⟩
        · exact ih [] (Or.inl rfl) lws hlws'
      · rw [if_neg hcur] at hlws
        rcases List.mem_cons.mp hlws with rfl | hlws'
        · rcases hinv with rfl | hs | hle'
          · exact absurd rfl hcur
          · exact Or.inl hs
          · exact Or.inr hle'
        · exact ih [w] (Or.inr (Or.inl ⟨w, rfl⟩)) lws hlws'

theorem wrapCore_mem_words (measure : String → Int) (maxWidth : Int)
    (ws cur : List String) {lws : List String}
    (hlws : lws ∈ wrapCore measure maxWidth ws cur) :
    ∀ x ∈ lws, x ∈ cur ++ ws := by
  intro x hx
  rw [← wrapCore_join measure maxWidth ws cur]
  exact List.mem_flatten.mpr ⟨lws, hlws, hx⟩

theorem pySplitS_words (s : String) :
    ∀ w ∈ pySplitS s, w.data ≠ [] ∧ ∀ c ∈ w.data, pyIsSpace c = false := by
  intro w hw
  obtain ⟨wl, hwl, rfl⟩ := List.mem_map.mp hw
  exact splitWSAux_words s.data [] (by simp) wl hwl

theorem pySplitS_joinWords (lws : List String)
    (h : ∀ w ∈ lws, w.data ≠ [] ∧ ∀ c ∈ w.data, pyIsSpace c = false) :
    pySplitS (joinWords lws) = lws := by
  unfold pySplitS joinWords
  rw [show (String.mk (joinWS (lws.map String.data))).data
      = joinWS (lws.map String.data) from rfl]
  rw [splitWS_joinWS (lws.map String.data) ?_]
  · rw [List.map_map]
    have h2 : (String.mk ∘ String.data) = id := funext fun s => String_mk_data s
    rw [h2, List.map_id]
  · intro w hw
    obtain ⟨s, hs, rfl⟩ := List.mem_map.mp hw
    exact h s hs

theorem joinWords_singleton (w : String) : joinWords [w] = w := String_mk_data w

/-- C6: for every measure function, width bound and text, the words of the
wrapped lines concatenate (in order) to the whitespace-split word sequence
of the input, and every emitted line either measures within the bound or is
a single input word that alone exceeds it, emitted unsplit. -/
theorem wrapText_spec (measure : String → Int) (maxWidth : Int) (text : String) :
    ((wrapText measure maxWidth text).map pySplitS).flatten = pySplitS text ∧
    ∀ line ∈ wrapText measure maxWidth text,
      measure line ≤ maxWidth ∨
      ((∃ w ∈ pySplitS text, line = w) ∧ maxWidth < measure line) := by
  by_cases ht : text = ""
  · subst ht
    exact ⟨rfl, by simp [wrapText]⟩
  · unfold wrapText
    rw [if_neg ht]
    constructor
    · rw [List.map_map]
      have hcongr : ∀ lws ∈ wrapCore measure maxWidth (pySplitS text) [],
          (pySplitS ∘ joinWords) lws = id lws := by
        intro lws hlws
        refine pySplitS_joinWords lws ?_
        intro w hw
        refine pySplitS_words text w ?_
        have := wrapCore_mem_words measure maxWidth (pySplitS text) [] hlws w hw
        simpa using this
      rw [List.map_congr_left hcongr, List.map_id]
      rw [wrapCore_join measure maxWidth (pySplitS text) []]
      rfl
    · intro line hline
      obtain ⟨lws, hlws, rfl⟩ := List.mem_map.mp hline
      rcases wrapCore_width measure maxWidth (pySplitS text) [] (Or.inl rfl) lws hlws
        with ⟨w, rfl⟩ | hle
      · rw [joinWords_singleton]
        by_cases hm : measure w ≤ maxWidth
        · exact Or.inl hm
        · refine Or.inr ⟨⟨w, ?_, rfl⟩, lt_of_not_le hm⟩
          have := wrapCore_mem_words measure maxWidth (pySplitS text) [] hlws w
            (List.mem_singleton_self w)
          simpa using this
      · exact Or.inl hle

theorem wrapText_spec_witness :
    ((wrapText lenMeasure 5 "ab cd ef").map pySplitS).flatten = pySplitS "ab cd ef" ∧
    (lenMeasure "ab cd" ≤ 5 ∨
      ((∃ w ∈ pySplitS "ab cd ef", "ab cd" = w) ∧ 5 < lenMeasure "ab cd")) :=
  ⟨(wrapText_spec lenMeasure 5 "ab cd ef").1,
   (wrapText_spec lenMeasure 5 "ab cd ef").2 "ab cd" (by decide)⟩

theorem String_eq_empty_iff (s : String) : s = "" ↔ s.data = [] := by
  constructor
  · intro h
    rw [h]
  · intro h
    cases s with
    | mk d =>
      cases h
      rfl

theorem splitWSAux_length_bound : ∀ (l acc : List Char),
    2 * (splitWSAux l acc).length ≤ l.length + 2 ∧
    (acc = [] → 2 * (splitWSAux l acc).length ≤ l.length + 1) := by
  intro l
  induction l with
  | nil =>
    intro acc
    by_cases h : acc = []
    · simp [splitWSAux, h]
    · rw [splitWSAux, if_neg h]
      exact ⟨by simp, fun hc => absurd hc h⟩
  | cons c t ih =>
    intro acc
    rw [splitWSAux]
    by_cases hc : pyIsSpace c = true
    · rw [if_pos hc]
      by_cases ha : acc = []
      · rw [if_pos ha]
        have h1 := (ih []).2 rfl
        simp only [List.length_cons]
        exact ⟨by omega, fun _ => by omega⟩
      · rw [if_neg ha]
        have h1 := (ih []).2 rfl
        simp only [List.length_cons]
        refine ⟨?_, fun hcon => absurd hcon ha⟩
        omega
    · rw [if_neg hc]
      have h1 := (ih (c :: acc)).1
      simp only [List.length_cons]
      exact ⟨by omega, fun _ => by omega⟩

theorem splitWS_length_bound (l : List Char) :
    2 * (splitWS l).length ≤ l.length + 1 :=
  (splitWSAux_length_bound l []).2 rfl

/-- C5: with no URL fetch involved, after cleaning: a summary whose word
count exceeds the 200-word budget becomes its first 197 words joined by
single spaces plus the ellipsis marker, and a cleaned summary under the
50-character floor is returned with the fixed generic context sentence
appended (the fixed generic sentence is substituted first when the cleaned
summary is empty). -/
theorem processSummary_finalization (fetch : String → String)
    (summary storyUrl : String) (hnf : summary ≠ "" ∨ storyUrl = "") :
    (200 < (splitWS (cleanHindiText (collapseWS (pyStrip summary.data)))).length →
      processSummary fetch summary storyUrl =
        String.mk (joinWS
          ((splitWS (cleanHindiText (collapseWS (pyStrip summary.data)))).take 197)
          ++ ['.', '.', '.'])) ∧
    ((cleanHindiText (collapseWS (pyStrip summary.data))).length < 50 →
      processSummary fetch summary storyUrl =
        String.mk ((if cleanHindiText (collapseWS (pyStrip summary.data)) = []
            then genericCrime
            else cleanHindiText (collapseWS (pyStrip summary.data)))
          ++ contextSentence)) := by
  have hs0 : (if summary.data = [] ∧ storyUrl ≠ "" then (fetch storyUrl).data
      else summary.data) = summary.data := by
    rcases hnf with hne | hurl
    · rw [if_neg]
      intro ⟨hd, _⟩
      exact hne ((String_eq_empty_iff summary).mpr hd)
    · rw [if_neg]
      intro ⟨_, hu⟩
      exact hu hurl
  constructor
  · intro hwords
    have hlen : 200 <
        (cleanHindiText (collapseWS (pyStrip summary.data))).length := by
      have := splitWS_length_bound (cleanHindiText (collapseWS (pyStrip summary.data)))
      omega
    simp only [processSummary, processSummaryL, hs0]
    rw [if_pos hlen]
    simp only [generateSummary]
    rw [if_neg (by omega)]
  · intro hshort
    simp only [processSummary, processSummaryL, hs0]
    rw [if_neg (by omega), if_pos hshort]
    simp only [enhanceSummary]
    by_cases hemp : cleanHindiText (collapseWS (pyStrip summary.data)) = []
    · rw [if_pos hemp, if_pos (by decide)]
    · have hwc : (splitWS (cleanHindiText (collapseWS (pyStrip summary.data)))).length
          < 30 := by
        have := splitWS_length_bound (cleanHindiText (collapseWS (pyStrip summary.data)))
        omega
      rw [if_neg hemp, if_pos hwc]

theorem processSummary_finalization_witness :
    processSummary oracleC "hello" "" =
      String.mk ((if cleanHindiText (collapseWS (pyStrip ("hello" : String).data)) = []
          then genericCrime
          else cleanHindiText (collapseWS (pyStrip ("hello" : String).data)))
        ++ contextSentence) :=
  (processSummary_finalization oracleC "hello" ""
    (Or.inl (by decide))).2 (by decide)

/-- C10: deduplication is idempotent — a second pass over an
already-deduplicated list drops nothing, because every pair of survivors
has similarity at most 0.7 and the drop test requires strictly more. -/
theorem removeDuplicates_idempotent (stories : List Story) :
    removeDuplicates (removeDuplicates stories) = removeDuplicates stories := by
  refine removeDupAux_id_of_pairwise (removeDuplicates stories) []
    (removeDupAux_pairwise stories []) ?_
  intro s _ h hh
  simp at hh

theorem processStories_selector_amended_witness :
    (processStories oracleI oracleC "t" [c2StoryB] 4).length ≤ (4 : Int).toNat ∧
    ((processStories oracleI oracleC "t" [c2StoryB] 4).map
      (fun ps => calculateQualityScore ps.original_data)).Pairwise (fun a b => b ≤ a) ∧
    ((processStories oracleI oracleC "t" [c2StoryB] 4).map (·.id)).Pairwise (· < ·) ∧
    ((processStories oracleI oracleC "t" [c2StoryB] 4).length =
        (pySlice 4 (sortStoriesByQuality [c2StoryB])).length →
      (processStories oracleI oracleC "t" [c2StoryB] 4).map (·.id) =
        List.range' 1 ((processStories oracleI oracleC "t" [c2StoryB] 4).length)) :=
  processStories_selector_amended oracleI oracleC "t" [c2StoryB] 4 (by decide)

theorem hasPair_nil (a b : Char) : hasPair a b [] = false := rfl

theorem hasPair_singleton (a b x : Char) : hasPair a b [x] = false := rfl

theorem hasPair_cons_cons (a b x y : Char) (t : List Char) :
    hasPair a b (x :: y :: t) =
      ((decide (x = a) && decide (y = b)) || hasPair a b (y :: t)) := rfl

theorem hasPair_tail {a b x : Char} {l : List Char}
    (h : hasPair a b (x :: l) = false) : hasPair a b l = false := by
  cases l with
  | nil => rfl
  | cons y t =>
    rw [hasPair_cons_cons, Bool.or_eq_false_iff] at h
    exact h.2

theorem hasPair_prefix_false : ∀ {l₁ l₂ : List Char} {a b : Char},
    l₁ <+: l₂ → hasPair a b l₂ = false → hasPair a b l₁ = false := by
  intro l₁
  induction l₁ with
  | nil => intro _ _ _ _ _; rfl
  | cons x t ih =>
    intro l₂ a b hpre h
    cases t with
    | nil => rfl
    | cons y t' =>
      obtain ⟨r, hr⟩ := hpre
      subst hr
      rw [List.cons_append, List.cons_append] at h
      rw [hasPair_cons_cons, Bool.or_eq_false_iff] at h ⊢
      refine ⟨h.1, ?_⟩
      exact ih ⟨r, by simp⟩ h.2

theorem hasPair_suffix {l₁ l₂ : List Char} {a b : Char}
    (hsuf : l₁ <:+ l₂) (h : hasPair a b l₂ = false) :
    hasPair a b l₁ = false := by
  obtain ⟨t, ht⟩ := hsuf
  subst ht
  induction t with
  | nil => exact h
  | cons x t' ih =>
    rw [List.cons_append] at h
    exact ih (hasPair_tail h)

theorem hasPair_infix_false {l₁ l₂ : List Char} {a b : Char}
    (hinf : l₁ <:+: l₂) (h : hasPair a b l₂ = false) :
    hasPair a b l₁ = false := by
  obtain ⟨s, t, hst⟩ := hinf
  subst hst
  have h1 : hasPair a b (l₁ ++ t) = false :=
    hasPair_suffix ⟨s, by simp⟩ h
  exact hasPair_prefix_false ⟨t, rfl⟩ h1

theorem hasPair_append_false : ∀ {u : List Char} {a b : Char} {v : List Char},
    hasPair a b u = false → hasPair a b v = false → headNotSp v →
    b = ' ' → hasPair a b (u ++ v) = false := by
  intro u
  induction u with
  | nil => intro _ _ v _ hv _ _; exact hv
  | cons x t ih =>
    intro a b v hu hv hhead hb
    cases t with
    | nil =>
      rw [List.singleton_append]
      cases v with
      | nil => rfl
      | cons y t' =>
        rw [hasPair_cons_cons, Bool.or_eq_false_iff]
        refine ⟨?_, hv⟩
        have hy : y ≠ ' ' := hhead y t' rfl
        have : decide (y = b) = false := by
          rw [decide_eq_false_iff_not]
          rw [hb]
          exact hy
        rw [this, Bool.and_false]
    | cons z t' =>
      rw [List.cons_append, List.cons_append]
      rw [hasPair_cons_cons, Bool.or_eq_false_iff] at hu
      rw [hasPair_cons_cons, Bool.or_eq_false_iff]
      exact ⟨hu.1, by simpa using ih hu.2 hv hhead hb⟩

theorem headNotWS_dropWhile (l : List Char) :
    headNotWS (l.dropWhile pyIsSpace) := by
  induction l with
  | nil => intro x t h; cases h
  | cons c l' ih =>
    rw [List.dropWhile_cons]
    by_cases hc : pyIsSpace c = true
    · rw [if_pos hc]
      exact ih
    · rw [if_neg hc]
      intro x t h
      cases h
      exact Bool.not_eq_true _ ▸ hc

theorem headNotWS_of_prefix {l₁ l₂ : List Char}
    (hpre : l₁ <+: l₂) (h : headNotWS l₂) : headNotWS l₁ := by
  obtain ⟨r, hr⟩ := hpre
  subst hr
  intro x t hxt
  subst hxt
  exact h x (t ++ r) (by simp)

theorem pyStrip_prefix_core (l : List Char) :
    ((l.dropWhile pyIsSpace).reverse.dropWhile pyIsSpace).reverse <+:
      l.dropWhile pyIsSpace := by
  have hs : (l.dropWhile pyIsSpace).reverse.dropWhile pyIsSpace <:+
      (l.dropWhile pyIsSpace).reverse := List.dropWhile_suffix _
  have h2 := List.reverse_prefix.mpr hs
  rwa [List.reverse_reverse] at h2

theorem pyStrip_headNotWS (l : List Char) : headNotWS (pyStrip l) := by
  unfold pyStrip
  exact headNotWS_of_prefix (pyStrip_prefix_core l) (headNotWS_dropWhile l)

theorem pyStrip_reverse_headNotWS (l : List Char) :
    headNotWS (pyStrip l).reverse := by
  unfold pyStrip
  rw [List.reverse_reverse]
  exact headNotWS_dropWhile _

theorem pyStrip_infix_self (l : List Char) : pyStrip l <:+: l := by
  unfold pyStrip
  exact (pyStrip_prefix_core l).isInfix.trans (List.dropWhile_suffix _).isInfix

theorem mem_pyStrip {c : Char} {l : List Char} (h : c ∈ pyStrip l) : c ∈ l :=
  (pyStrip_infix_self l).sublist.mem h

theorem mem_collapseWSAux : ∀ {l : List Char} {b : Bool} {c : Char},
    c ∈ collapseWSAux b l → c = ' ' ∨ c ∈ l := by
  intro l
  induction l with
  | nil => intro b c h; cases h
  | cons x t ih =>
    intro b c h
    rw [collapseWSAux] at h
    by_cases hx : pyIsSpace x = true
    · rw [if_pos hx] at h
      cases b with
      | true =>
        rcases ih h with h' | h'
        · exact Or.inl h'
        · exact Or.inr (List.mem_cons_of_mem _ h')
      | false =>
        rcases List.mem_cons.mp h with rfl | h'
        · exact Or.inl rfl
        · rcases ih h' with h'' | h''
          · exact Or.inl h''
          · exact Or.inr (List.mem_cons_of_mem _ h'')
    · rw [if_neg hx] at h
      rcases List.mem_cons.mp h with rfl | h'
      · exact Or.inr (List.mem_cons_self _ _)
      · rcases ih h' with h'' | h''
        · exact Or.inl h''
        · exact Or.inr (List.mem_cons_of_mem _ h'')

theorem collapseWSAux_ws_space : ∀ {l : List Char} {b : Bool} {c : Char},
    c ∈ collapseWSAux b l → pyIsSpace c = true → c = ' ' := by
  intro l
  induction l with
  | nil => intro b c h; cases h
  | cons x t ih =>
    intro b c h hc
    rw [collapseWSAux] at h
    by_cases hx : pyIsSpace x = true
    · rw [if_pos hx] at h
      cases b with
      | true => exact ih h hc
      | false =>
        rcases List.mem_cons.mp h with rfl | h'
        · rfl
        · exact ih h' hc
    · rw [if_neg hx] at h
      rcases List.mem_cons.mp h with rfl | h'
      · exact absurd hc (by simp [hx])
      · exact ih h' hc

theorem collapseWSAux_structure : ∀ (l : List Char),
    (hasPair ' ' ' ' (collapseWSAux true l) = false ∧
      headNotSp (collapseWSAux true l)) ∧
    hasPair ' ' ' ' (collapseWSAux false l) = false := by
  intro l
  induction l with
  | nil => exact ⟨⟨rfl, fun x t h => by cases h⟩, rfl⟩
  | cons c t ih =>
    by_cases hc : pyIsSpace c = true
    · have htrue : collapseWSAux true (c :: t) = collapseWSAux true t := by
        rw [collapseWSAux, if_pos hc]
        rfl
      have hfalse : collapseWSAux false (c :: t) = ' ' :: collapseWSAux true t := by
        rw [collapseWSAux, if_pos hc]
        rfl
      refine ⟨⟨by rw [htrue]; exact ih.1.1, by rw [htrue]; exact ih.1.2⟩, ?_⟩
      rw [hfalse]
      cases hout : collapseWSAux true t with
      | nil => rfl
      | cons y t' =>
        rw [hasPair_cons_cons, Bool.or_eq_false_iff]
        constructor
        · have hy : y ≠ ' ' := ih.1.2 y t' hout
          have : decide (y = ' ') = false := decide_eq_false_iff_not.mpr hy
          rw [this, Bool.and_false]
        · rw [← hout]
          exact ih.1.1
    · have heq : ∀ b : Bool, collapseWSAux b (c :: t) = c :: collapseWSAux false t := by
        intro b
        rw [collapseWSAux, if_neg hc]
      have hcsp : c ≠ ' ' := fun h => hc (by rw [h]; rfl)
      have hpair : hasPair ' ' ' ' (c :: collapseWSAux false t) = false := by
        cases hout : collapseWSAux false t with
        | nil => rfl
        | cons y t' =>
          rw [hasPair_cons_cons, Bool.or_eq_false_iff]
          constructor
          · have : decide (c = ' ') = false := decide_eq_false_iff_not.mpr hcsp
            rw [this, Bool.false_and]
          · rw [← hout]
            exact ih.2
      refine ⟨⟨by rw [heq true]; exact hpair, ?_⟩, by rw [heq false]; exact hpair⟩
      rw [heq true]
      intro x t' hxt
      cases hxt
      exact hcsp

theorem mem_replPair : ∀ {l : List Char} {a b r c : Char},
    c ∈ replPair a b r l → c ∈ l ∨ c = r
  | [], _, _, _, _, h => absurd h (List.not_mem_nil _)
  | [_], _, _, _, _, h => by
    rw [replPair] at h
    exact Or.inl h
  | x :: y :: t, a, b, r, c, h => by
    rw [replPair] at h
    by_cases hxy : x = a ∧ y = b
    · rw [if_pos hxy] at h
      rcases List.mem_cons.mp h with rfl | h'
      · exact Or.inr rfl
      · rcases mem_replPair h' with h'' | h''
        · exact Or.inl (List.mem_cons_of_mem _ (List.mem_cons_of_mem _ h''))
        · exact Or.inr h''
    · rw [if_neg hxy] at h
      rcases List.mem_cons.mp h with rfl | h'
      · exact Or.inl (List.mem_cons_self _ _)
      · rcases mem_replPair h' with h'' | h''
        · exact Or.inl (List.mem_cons_of_mem _ h'')
        · exact Or.inr h''

theorem dropWhile_eq_self_of_headNotWS {l : List Char} (h : headNotWS l) :
    l.dropWhile pyIsSpace = l := by
  cases l with
  | nil => rfl
  | cons c t =>
    rw [List.dropWhile_cons, if_neg (by rw [h c t rfl]; simp)]

theorem pyStrip_eq_self {l : List Char} (h1 : headNotWS l)
    (h2 : headNotWS l.reverse) : pyStrip l = l := by
  unfold pyStrip
  rw [dropWhile_eq_self_of_headNotWS h1, dropWhile_eq_self_of_headNotWS h2,
    List.reverse_reverse]

theorem replPair_eq_self : ∀ {a b r : Char} {l : List Char},
    hasPair a b l = false → replPair a b r l = l := by
  intro a b r l
  induction l with
  | nil => intro _; rfl
  | cons x t ih =>
    intro h
    cases t with
    | nil => rfl
    | cons y t' =>
      rw [hasPair_cons_cons, Bool.or_eq_false_iff] at h
      have hxy : ¬(x = a ∧ y = b) := by
        intro ⟨ha, hb⟩
        rw [ha, hb] at h
        simp at h
      rw [replPair, if_neg hxy, ih h.2]

theorem collapseWS_eq_self : ∀ (l : List Char),
    (∀ c ∈ l, pyIsSpace c = true → c = ' ') →
    hasPair ' ' ' ' l = false →
    collapseWSAux false l = l ∧ (headNotWS l → collapseWSAux true l = l) := by
  intro l
  induction l with
  | nil => intro _ _; exact ⟨rfl, fun _ => rfl⟩
  | cons c t ih =>
    intro hB hC
    have hB' : ∀ x ∈ t, pyIsSpace x = true → x = ' ' :=
      fun x hx => hB x (List.mem_cons_of_mem _ hx)
    have hC' : hasPair ' ' ' ' t = false := hasPair_tail hC
    by_cases hc : pyIsSpace c = true
    · have hcsp : c = ' ' := hB c (List.mem_cons_self _ _) hc
      have ht : headNotWS t := by
        intro x t' hxt
        by_contra hx
        have hxws : pyIsSpace x = true := by
          cases hxb : pyIsSpace x with
          | true => rfl
          | false => exact absurd hxb hx
        have hxmem : x ∈ c :: t := by
          rw [hxt]
          exact List.mem_cons_of_mem _ (List.mem_cons_self _ _)
        have hxsp : x = ' ' := hB x hxmem hxws
        rw [hcsp, hxt, hxsp] at hC
        rw [hasPair_cons_cons, Bool.or_eq_false_iff] at hC
        exact absurd hC.1 (by decide)
      constructor
      · rw [collapseWSAux, if_pos hc, (ih hB' hC').2 ht, hcsp]
        rfl
      · intro hhead
        exact absurd (hhead c t rfl) (by simp [hc])
    · have hfalse : collapseWSAux false t = t := (ih hB' hC').1
      constructor
      · rw [collapseWSAux, if_neg hc, hfalse]
      · intro _
        rw [collapseWSAux, if_neg hc, hfalse]

theorem mem_collapseWS {l : List Char} {c : Char} (h : c ∈ collapseWS l) :
    c = ' ' ∨ c ∈ l := mem_collapseWSAux h

theorem collapseWS_ws_space {l : List Char} {c : Char} (h : c ∈ collapseWS l)
    (hc : pyIsSpace c = true) : c = ' ' := collapseWSAux_ws_space h hc

theorem collapseWS_noPair (l : List Char) :
    hasPair ' ' ' ' (collapseWS l) = false := (collapseWSAux_structure l).2

theorem collapseWS_eq_self' {l : List Char}
    (hB : ∀ c ∈ l, pyIsSpace c = true → c = ' ')
    (hC : hasPair ' ' ' ' l = false) : collapseWS l = l :=
  (collapseWS_eq_self l hB hC).1

theorem cleanHindiText_keepChar (z : List Char) :
    ∀ c ∈ cleanHindiText z, keepChar c = true := by
  intro c hc
  unfold cleanHindiText at hc
  have h1 := mem_pyStrip hc
  rcases mem_collapseWS h1 with rfl | h2
  · decide
  · rcases mem_replPair h2 with h3 | rfl
    · rcases mem_replPair h3 with h4 | rfl
      · exact (List.mem_filter.mp h4).2
      · decide
    · decide

theorem cleanHindiText_ws_space (z : List Char) :
    ∀ c ∈ cleanHindiText z, pyIsSpace c = true → c = ' ' := by
  intro c hc hwc
  unfold cleanHindiText at hc
  exact collapseWS_ws_space (mem_pyStrip hc) hwc

theorem cleanHindiText_noPair (z : List Char) :
    hasPair ' ' ' ' (cleanHindiText z) = false := by
  unfold cleanHindiText
  exact hasPair_infix_false (pyStrip_infix_self _) (collapseWS_noPair _)

theorem cleanHindiText_head (z : List Char) : headNotWS (cleanHindiText z) :=
  pyStrip_headNotWS _

theorem cleanHindiText_last (z : List Char) :
    headNotWS (cleanHindiText z).reverse :=
  pyStrip_reverse_headNotWS _

theorem cleanHindiText_eq_self {y : List Char}
    (hA : ∀ c ∈ y, keepChar c = true)
    (hB : ∀ c ∈ y, pyIsSpace c = true → c = ' ')
    (hC : hasPair ' ' ' ' y = false)
    (hD : headNotWS y) (hE : headNotWS y.reverse)
    (hF1 : hasPair ' ' ',' y = false) (hF2 : hasPair ' ' '.' y = false) :
    cleanHindiText y = y := by
  unfold cleanHindiText
  rw [List.filter_eq_self.mpr hA, replPair_eq_self hF1, replPair_eq_self hF2,
    collapseWS_eq_self' hB hC, pyStrip_eq_self hD hE]

theorem processHeadlineL_fixed {y : List Char}
    (hA : ∀ c ∈ y, keepChar c = true)
    (hB : ∀ c ∈ y, pyIsSpace c = true → c = ' ')
    (hC : hasPair ' ' ' ' y = false)
    (hD : headNotWS y) (hE : headNotWS y.reverse)
    (hF1 : hasPair ' ' ',' y = false) (hF2 : hasPair ' ' '.' y = false)
    (hG : y.length ≤ 80) :
    processHeadlineL y = y := by
  by_cases hy : y = []
  · rw [hy]
    rfl
  · simp only [processHeadlineL, if_neg hy]
    rw [pyStrip_eq_self hD hE, collapseWS_eq_self' hB hC,
      cleanHindiText_eq_self hA hB hC hD hE hF1 hF2]
    rw [if_neg (by omega)]

theorem trunc_invariants {h : List Char}
    (hA : ∀ c ∈ h, keepChar c = true)
    (hB : ∀ c ∈ h, pyIsSpace c = true → c = ' ')
    (hC : hasPair ' ' ' ' h = false)
    (hD : headNotWS h)
    (hlen : 80 < h.length) :
    (∀ c ∈ h.take 77 ++ ['.', '.', '.'], keepChar c = true) ∧
    (∀ c ∈ h.take 77 ++ ['.', '.', '.'], pyIsSpace c = true → c = ' ') ∧
    hasPair ' ' ' ' (h.take 77 ++ ['.', '.', '.']) = false ∧
    headNotWS (h.take 77 ++ ['.', '.', '.']) ∧
    headNotWS (h.take 77 ++ ['.', '.', '.']).reverse ∧
    (h.take 77 ++ ['.', '.', '.']).length ≤ 80 := by
  refine ⟨?_, ?_, ?_, ?_, ?_, ?_⟩
  · intro c hc
    rcases List.mem_append.mp hc with hc' | hc'
    · exact hA c ((List.take_sublist 77 h).mem hc')
    · have hdot : c = '.' := by simpa using hc'
      subst hdot
      decide
  · intro c hc hwc
    rcases List.mem_append.mp hc with hc' | hc'
    · exact hB c ((List.take_sublist 77 h).mem hc') hwc
    · have hdot : c = '.' := by simpa using hc'
      subst hdot
      exact absurd hwc (by decide)
  · refine hasPair_append_false (hasPair_prefix_false ( List.take_prefix 77 h) hC)
      (by decide) ?_ rfl
    intro y t hyt
    cases hyt
    decide
  · cases hh : h with
    | nil => rw [hh] at hlen; simp at hlen
    | cons c0 h' =>
      rw [List.take_succ_cons, List.cons_append]
      intro x t hxt
      injection hxt with hx _
      rw [← hx]
      exact hD c0 h' hh
  · rw [List.reverse_append]
    rw [show (['.', '.', '.'] : List Char).reverse = ['.', '.', '.'] from rfl]
    intro x t hxt
    injection hxt with hx _
    rw [← hx]
    decide
  · rw [List.length_append, List.length_take]
    simp only [List.length_cons, List.length_nil]
    omega

theorem processHeadlineL_invariants (x : List Char) :
    (∀ c ∈ processHeadlineL x, keepChar c = true) ∧
    (∀ c ∈ processHeadlineL x, pyIsSpace c = true → c = ' ') ∧
    hasPair ' ' ' ' (processHeadlineL x) = false ∧
    headNotWS (processHeadlineL x) ∧
    headNotWS (processHeadlineL x).reverse ∧
    (processHeadlineL x).length ≤ 80 := by
  by_cases hx : x = []
  · subst hx
    refine ⟨fun c hc => absurd hc (List.not_mem_nil c),
      fun c hc => absurd hc (List.not_mem_nil c), rfl, ?_, ?_, ?_⟩
    · intro a t h
      simp [processHeadlineL] at h
    · intro a t h
      simp [processHeadlineL] at h
    · simp [processHeadlineL]
  · simp only [processHeadlineL, if_neg hx]
    have hAh := cleanHindiText_keepChar (collapseWS (pyStrip x))
    have hBh := cleanHindiText_ws_space (collapseWS (pyStrip x))
    have hCh := cleanHindiText_noPair (collapseWS (pyStrip x))
    have hDh := cleanHindiText_head (collapseWS (pyStrip x))
    have hEh := cleanHindiText_last (collapseWS (pyStrip x))
    by_cases htr : 80 < (cleanHindiText (collapseWS (pyStrip x))).length
    · rw [if_pos htr]
      have ht := trunc_invariants hAh hBh hCh hDh htr
      exact ⟨ht.1, ht.2.1, ht.2.2.1, ht.2.2.2.1, ht.2.2.2.2.1, ht.2.2.2.2.2⟩
    · rw [if_neg htr]
      exact ⟨hAh, hBh, hCh, hDh, hEh, by omega⟩

/-- C4 counterexample: headline normalization is not idempotent.  Removing
the disallowed character of this input leaves a space before the period,
which the replace step has already passed; a second normalization then
rewrites the space-period pair, changing the string. -/
theorem processHeadline_not_idempotent :
    processHeadline (processHeadline "a ☃ .") ≠ processHeadline "a ☃ ." := by
  decide

/-- C4 (amended): headline normalization is idempotent on every input whose
normalized form contains no space-comma and no space-period pair (these
pairs can survive one pass when character removal or truncation creates
them after the replace step has run; on all other inputs a second pass is
the identity). -/
theorem processHeadline_idempotent_amended (x : String)
    (h1 : hasPair ' ' ',' (processHeadline x).data = false)
    (h2 : hasPair ' ' '.' (processHeadline x).data = false) :
    processHeadline (processHeadline x) = processHeadline x := by
  have hinv := processHeadlineL_invariants x.data
  have hdata : (processHeadline x).data = processHeadlineL x.data := rfl
  rw [hdata] at h1 h2
  show String.mk (processHeadlineL (processHeadline x).data) = processHeadline x
  rw [hdata]
  exact congrArg String.mk (processHeadlineL_fixed hinv.1 hinv.2.1 hinv.2.2.1
    hinv.2.2.2.1 hinv.2.2.2.2.1 h1 h2 hinv.2.2.2.2.2)

theorem processHeadline_idempotent_witness :
    processHeadline (processHeadline "ab  cd") = processHeadline "ab  cd" :=
  processHeadline_idempotent_amended "ab  cd" (by decide) (by decide)

end YTShort
